import Mathlib

/-!
Verification of the resume interview-question generator (`src/app.py`).

Python strings are modelled as `List Char`.  The pure string-processing
functions of the program (`process_text`, `parse_questions`, the PDF
extraction fallback chain in `main`, and the reconstruction of the
downloadable questions artifact) are embedded as executable Lean
definitions, and the specification's claims about them are proved or
refuted below.
-/

/-- A Python string, modelled as a list of characters. -/
abbrev PyStr := List Char

/-- Python's whitespace class `\s` (also the default class stripped by
`str.strip`), restricted to the ASCII whitespace characters
`' '`, `'\t'`, `'\n'`, `'\r'`, `'\x0b'`, `'\x0c'`. -/
def isPySpace (c : Char) : Bool :=
  c = ' ' || c = '\t' || c = '\n' || c = '\r' || c = '\x0b' || c = '\x0c'

/-- Python `str.strip()`: remove leading and trailing whitespace. -/
def pyStrip (l : PyStr) : PyStr :=
  ((l.dropWhile isPySpace).reverse.dropWhile isPySpace).reverse

/-- One whitespace run starting at the head of `run` (which begins with
`'\n'`): the number of characters up to and including the last `'\n'`
of `run`.  This is where the backtracking regex `\n\s*\n` ends its match. -/
def nlMatchLen (run : PyStr) : Nat :=
  run.length - (run.reverse.takeWhile (fun x => x ≠ '\n')).length

/-- Models `re.sub(r'\n\s*\n', '\n\n', text)` (the first substitution of
`process_text`, `src/app.py` line 126): scanning left to right, a match
starts at a `'\n'` whose maximal following whitespace run contains another
`'\n'`; the greedy `\s*` backtracks so the match ends at the last `'\n'`
of that run, and the whole match is replaced by `"\n\n"`. -/
def subBlankLines : PyStr → PyStr
  | [] => []
  | c :: cs =>
    if c = '\n' then
      let run := cs.takeWhile isPySpace
      if '\n' ∈ run then
        '\n' :: '\n' :: subBlankLines (cs.drop (nlMatchLen run))
      else
        c :: subBlankLines cs
    else
      c :: subBlankLines cs
termination_by l => l.length
decreasing_by
  · simp only [List.length_cons, List.length_drop]
    omega
  · simp
  · simp

/-- Models `re.sub(r'\s+', ' ', text)` (the second substitution of `process_text`,
`src/app.py` line 127): every maximal whitespace run is replaced by a single
space.  The Boolean argument records whether we are inside a run whose
single replacement space has already been emitted. -/
def collapseAux : Bool → PyStr → PyStr
  | _, [] => []
  | inRun, c :: cs =>
    if isPySpace c then
      if inRun then collapseAux true cs else ' ' :: collapseAux true cs
    else
      c :: collapseAux false cs

/-- Models `re.sub(r'\s+', ' ', text)`. -/
def collapseWS (l : PyStr) : PyStr := collapseAux false l

/-- Models `process_text` (`src/app.py` lines 124-128): the blank-line
substitution, then the whitespace-run substitution, then `str.strip()`. -/
def process_text (l : PyStr) : PyStr :=
  pyStrip (collapseWS (subBlankLines l))

/-- Helper for `str.endswith`: list prefix comparison. -/
def startsWithL : PyStr → PyStr → Bool
  | _, [] => true
  | [], _ :: _ => false
  | c :: cs, d :: ds => c = d && startsWithL cs ds

/-- Python `str.endswith`. -/
def pyEndsWith (l suf : PyStr) : Bool := startsWithL l.reverse suf.reverse

/-- The literal `'Questions:'` that `parse_questions` looks for at the end
of a stripped line (`src/app.py` line 19). -/
def questionsColon : PyStr := String.toList "Questions:"

/-- Models `line.startswith(tuple('1234567890'))` (`src/app.py` line 24). -/
def startsDigit : PyStr → Bool
  | [] => false
  | c :: _ =>
    c = '1' || c = '2' || c = '3' || c = '4' || c = '5' ||
    c = '6' || c = '7' || c = '8' || c = '9' || c = '0'

/-- Models `'. ' in line` (`src/app.py` line 24): the two-character substring
`". "` occurs somewhere in the line. -/
def hasDotSpace : PyStr → Bool
  | '.' :: ' ' :: _ => true
  | _ :: rest => hasDotSpace rest
  | [] => false

/-- Models `line[line.find('.')+2:]` (`src/app.py` line 25): drop everything up to
and including the first `'.'` and the character right after it.  It is only
applied to lines that contain `'. '`, so `find` returns the index of the
first dot. -/
def questionOf (l : PyStr) : PyStr :=
  l.drop (l.findIdx (fun c => c = '.') + 2)

/-- The loop state of `parse_questions`: the accumulated dict, the current
section name (`None` before the first header) and the questions collected
since the last header. -/
structure ParseState where
  sections : List (PyStr × List PyStr)
  current_section : Option PyStr
  current_questions : List PyStr

/-- Models `sections[key] = value` on a Python dict (insertion-ordered;
assigning to an existing key overwrites in place). -/
def dictInsert (k : PyStr) (v : List PyStr) : List (PyStr × List PyStr) → List (PyStr × List PyStr)
  | [] => [(k, v)]
  | (k', v') :: rest =>
    if k' = k then (k', v) :: rest else (k', v') :: dictInsert k v rest

/-- Models `if current_section and current_questions: sections[current_section] =
current_questions` (`src/app.py` lines 20-21 and 28-29), with Python
truthiness: a `None` or empty section name or an empty question list
skips the assignment. -/
def flushSection (st : ParseState) : List (PyStr × List PyStr) :=
  match st.current_section with
  | none => st.sections
  | some s =>
    if !s.isEmpty && !st.current_questions.isEmpty then
      dictInsert s st.current_questions st.sections
    else
      st.sections

/-- One iteration of the `for line in questions_text.split('\n')` loop of
`parse_questions` (`src/app.py` lines 17-26). -/
def parseStep (st : ParseState) (raw : PyStr) : ParseState :=
  let line := pyStrip raw
  if pyEndsWith line questionsColon then
    { sections := flushSection st
      current_section := some line.dropLast
      current_questions := [] }
  else if startsDigit line && hasDotSpace line then
    { st with current_questions := st.current_questions ++ [questionOf line] }
  else
    st

/-- Models `parse_questions` (`src/app.py` lines 11-31): run the loop over the
lines of the reply, then flush the last section. -/
def parse_questions (text : PyStr) : List (PyStr × List PyStr) :=
  flushSection ((List.splitOn '\n' text).foldl parseStep ⟨[], none, []⟩)

/-- The behaviour of one PDF extraction method, as observed by `main`:
either it returns a string, or it raises an exception (carrying its
message). -/
abbrev ExtractResult := Except PyStr PyStr

/-- The PDF branch of the `try:` block in `main` (`src/app.py` lines
173-178): run method 1 (pdfplumber); if its result strips to empty, run
method 2 (PyPDF2); if that also strips to empty, run method 3 (pdfminer).
There is no `try/except` around the individual methods, so an exception
raised by any method propagates out of the chain at once. -/
def extractPdfText (m1 m2 m3 : ExtractResult) : ExtractResult :=
  match m1 with
  | .error e => .error e
  | .ok t1 =>
    if (pyStrip t1).isEmpty then
      match m2 with
      | .error e => .error e
      | .ok t2 =>
        if (pyStrip t2).isEmpty then m3 else .ok t2
    else
      .ok t1

/-- What the user sees from the PDF branch: the whole chain runs inside
`main`'s single `try: ... except Exception` (`src/app.py` lines 172 and
282-284), so an extracted text continues down the pipeline while any
exception jumps to the generic `st.error("Error processing file: ...")`
report. -/
inductive PdfOutcome where
  | text (t : PyStr)
  | genericReport (e : PyStr)
deriving DecidableEq

/-- The PDF branch of `main` together with its enclosing `except` handler. -/
def runPdfBranch (m1 m2 m3 : ExtractResult) : PdfOutcome :=
  match extractPdfText m1 m2 m3 with
  | .ok t => .text t
  | .error e => .genericReport e

/-- Python's `enumerate(xs, start)`: pair each element with its index. -/
def pyEnum (start : Nat) : List PyStr → List (Nat × PyStr)
  | [] => []
  | x :: xs => (start, x) :: pyEnum (start + 1) xs

/-- Python `sep.join(parts)`. -/
def pyJoin (sep : PyStr) : List PyStr → PyStr
  | [] => []
  | [x] => x
  | x :: y :: rest => x ++ sep ++ pyJoin sep (y :: rest)

/-- The decimal rendering of a number, as Python's f-string does it. -/
def natChars (n : Nat) : PyStr := (Nat.repr n).toList

/-- Models `f"{i+1}. {q}" for i, q in enumerate(questions)` (`src/app.py`
line 256). -/
def numberedLines (qs : List PyStr) : List PyStr :=
  (pyEnum 0 qs).map (fun p => natChars (p.1 + 1) ++ '.' :: ' ' :: p.2)

/-- Models `f"{section}:\n" + "\n".join(...)` (`src/app.py` line 256). -/
def sectionBlock (sec : PyStr) (qs : List PyStr) : PyStr :=
  sec ++ ':' :: '\n' :: pyJoin ['\n'] (numberedLines qs)

/-- The downloadable questions artifact (`src/app.py` lines 255-258):
`"\n\n".join` of the per-section blocks, in dict order. -/
def questionsArtifact (secs : List (PyStr × List PyStr)) : PyStr :=
  pyJoin ['\n', '\n'] (secs.map (fun p => sectionBlock p.1 p.2))

/-- The claim's description of one section's numbered question lines:
each question on its own line, prefixed by its 1-based index, a dot and a
space.  `n` is the index of the first question of the remaining list. -/
def claimNumbered (n : Nat) : List PyStr → PyStr
  | [] => []
  | [q] => natChars n ++ '.' :: ' ' :: q
  | q :: q' :: rest =>
    (natChars n ++ '.' :: ' ' :: q) ++ '\n' :: claimNumbered (n + 1) (q' :: rest)

/-- The claim's description of the whole artifact: for each section in
order, the section name, a colon and a newline, then the numbered
questions, with consecutive sections separated by one blank line
(that is, by `"\n\n"`). -/
def claimArtifact : List (PyStr × List PyStr) → PyStr
  | [] => []
  | [(s, qs)] => s ++ ':' :: '\n' :: claimNumbered 1 qs
  | (s, qs) :: p :: rest =>
    (s ++ ':' :: '\n' :: claimNumbered 1 qs) ++ '\n' :: '\n' :: claimArtifact (p :: rest)

/-- Two consecutive space characters occur somewhere in the string. -/
def hasDoubleSpace : PyStr → Bool
  | [] => false
  | [_] => false
  | a :: b :: rest => (a = ' ' && b = ' ') || hasDoubleSpace (b :: rest)

/-- No two adjacent characters of the string are both whitespace. -/
def NoAdjWS (l : PyStr) : Prop :=
  List.Chain' (fun a b => isPySpace a = false ∨ isPySpace b = false) l

/-- Every whitespace character of the string is a plain space. -/
def allWsSp (l : PyStr) : Prop :=
  ∀ c ∈ l, isPySpace c = true → c = ' '

theorem collapseAux_head_true (l : PyStr) (c : Char)
    (h : (collapseAux true l).head? = some c) : isPySpace c = false := by
  induction l with
  | nil => simp [collapseAux] at h
  | cons d ds ih =>
    rw [collapseAux] at h
    by_cases hd : isPySpace d
    · rw [if_pos hd] at h
      exact ih h
    · rw [if_neg hd] at h
      simp only [List.head?_cons, Option.some.injEq] at h
      rw [← h]
      exact eq_false_of_ne_true hd

theorem collapseAux_noAdj (l : PyStr) : ∀ b, NoAdjWS (collapseAux b l) := by
  induction l with
  | nil => intro b; simp [collapseAux, NoAdjWS]
  | cons d ds ih =>
    intro b
    rw [collapseAux]
    by_cases hd : isPySpace d
    · rw [if_pos hd]
      cases b with
      | true => exact ih true
      | false =>
        simp only [Bool.false_eq_true, if_false]
        rw [NoAdjWS, List.chain'_cons']
        refine ⟨fun y hy => Or.inr (collapseAux_head_true ds y hy), ih true⟩
    · rw [if_neg hd]
      rw [NoAdjWS, List.chain'_cons']
      exact ⟨fun y _ => Or.inl (eq_false_of_ne_true hd), ih false⟩

theorem collapseAux_allWsSp (l : PyStr) : ∀ b, allWsSp (collapseAux b l) := by
  induction l with
  | nil => intro b; simp [collapseAux, allWsSp]
  | cons d ds ih =>
    intro b
    rw [collapseAux]
    by_cases hd : isPySpace d
    · rw [if_pos hd]
      cases b with
      | true => exact ih true
      | false =>
        simp only [Bool.false_eq_true, if_false]
        intro c hc hws
        rcases List.mem_cons.mp hc with h | h
        · exact h
        · exact ih true c h hws
    · rw [if_neg hd]
      intro c hc hws
      rcases List.mem_cons.mp hc with h | h
      · exact absurd (h ▸ hws) hd
      · exact ih false c h hws

theorem mem_of_mem_dropWhile {p : Char → Bool} {l : PyStr} {c : Char}
    (h : c ∈ l.dropWhile p) : c ∈ l := by
  rw [← List.takeWhile_append_dropWhile p l]
  exact List.mem_append_right _ h

theorem mem_of_mem_pyStrip {l : PyStr} {c : Char} (h : c ∈ pyStrip l) : c ∈ l := by
  rw [pyStrip] at h
  rw [List.mem_reverse] at h
  have h2 := mem_of_mem_dropWhile h
  rw [List.mem_reverse] at h2
  exact mem_of_mem_dropWhile h2

theorem noAdj_dropWhile {p : Char → Bool} {l : PyStr} (h : NoAdjWS l) :
    NoAdjWS (l.dropWhile p) := by
  exact List.Chain'.suffix h ⟨l.takeWhile p, List.takeWhile_append_dropWhile p l⟩

theorem noAdj_reverse {l : PyStr} (h : NoAdjWS l) : NoAdjWS l.reverse := by
  rw [NoAdjWS, List.chain'_reverse]
  exact List.Chain'.imp (fun a b hab => hab.symm) h

theorem noAdj_pyStrip {l : PyStr} (h : NoAdjWS l) : NoAdjWS (pyStrip l) := by
  rw [pyStrip]
  exact noAdj_reverse (noAdj_dropWhile (noAdj_reverse (noAdj_dropWhile h)))

theorem noAdj_no_double : ∀ l : PyStr, NoAdjWS l → hasDoubleSpace l = false := by
  intro l
  induction l with
  | nil => intro _; rfl
  | cons a rest ih =>
    intro h
    cases rest with
    | nil => rfl
    | cons b rest' =>
      rw [NoAdjWS, List.chain'_cons] at h
      rw [hasDoubleSpace]
      have hab : (a = ' ' && b = ' ') = false := by
        rcases h.1 with hh | hh
        · have : ¬ a = ' ' := by
            intro e; rw [e] at hh; exact absurd hh (by decide)
          simp [this]
        · have : ¬ b = ' ' := by
            intro e; rw [e] at hh; exact absurd hh (by decide)
          simp [this]
      rw [hab, Bool.false_or]
      exact ih h.2

theorem head_dropWhile {p : Char → Bool} : ∀ {l : PyStr} {c : Char} {cs : PyStr},
    l.dropWhile p = c :: cs → p c = false := by
  intro l
  induction l with
  | nil => intro c cs h; simp [List.dropWhile] at h
  | cons d ds ih =>
    intro c cs h
    rw [List.dropWhile_cons] at h
    by_cases hd : p d
    · rw [if_pos hd] at h
      exact ih h
    · rw [if_neg hd] at h
      cases h
      exact eq_false_of_ne_true hd

theorem dropWhile_eq_self {p : Char → Bool} {l : PyStr}
    (h : ∀ c, l.head? = some c → p c = false) : l.dropWhile p = l := by
  cases l with
  | nil => rfl
  | cons d ds =>
    rw [List.dropWhile_cons, if_neg]
    intro hd
    exact absurd (h d rfl) (by simp [hd])

/-- The result `pyStrip l` is a prefix of `l.dropWhile isPySpace`; in particular a
nonempty `pyStrip l` starts with a non-whitespace character. -/
theorem pyStrip_head {l : PyStr} {c : Char} {cs : PyStr}
    (h : pyStrip l = c :: cs) : isPySpace c = false := by
  have key : l.dropWhile isPySpace = pyStrip l ++
      ((l.dropWhile isPySpace).reverse.takeWhile isPySpace).reverse := by
    rw [pyStrip]
    rw [← List.reverse_append]
    rw [List.takeWhile_append_dropWhile]
    rw [List.reverse_reverse]
  rw [h] at key
  exact head_dropWhile key

theorem pyStrip_last {l : PyStr} {c : Char} {cs : PyStr}
    (h : (pyStrip l).reverse = c :: cs) : isPySpace c = false := by
  rw [pyStrip, List.reverse_reverse] at h
  exact head_dropWhile h

theorem pyStrip_eq_self {l : PyStr}
    (h1 : ∀ c, l.head? = some c → isPySpace c = false)
    (h2 : ∀ c, l.reverse.head? = some c → isPySpace c = false) :
    pyStrip l = l := by
  rw [pyStrip, dropWhile_eq_self h1, dropWhile_eq_self h2, List.reverse_reverse]

theorem subBlankLines_no_nl : ∀ l : PyStr, '\n' ∉ l → subBlankLines l = l := by
  intro l
  induction l with
  | nil => intro _; rw [subBlankLines]
  | cons c cs ih =>
    intro h
    have hc : ¬ c = '\n' := fun e => h (e ▸ List.mem_cons_self c cs)
    rw [subBlankLines, if_neg hc]
    rw [ih (fun m => h (List.mem_cons_of_mem c m))]

theorem collapseAux_true_head {d : Char} {ds : PyStr} (hd : isPySpace d = false) :
    collapseAux true (d :: ds) = collapseAux false (d :: ds) := by
  rw [collapseAux, collapseAux, if_neg (by simp [hd]), if_neg (by simp [hd])]

theorem collapseAux_id {l : PyStr} (h1 : allWsSp l) (h2 : NoAdjWS l) :
    collapseAux false l = l := by
  induction l with
  | nil => rfl
  | cons c cs ih =>
    by_cases hc : isPySpace c
    · have hc' : c = ' ' := h1 c (List.mem_cons_self c cs) hc
      rw [collapseAux, if_pos hc]
      simp only [Bool.false_eq_true, if_false]
      cases cs with
      | nil => rw [hc']; rfl
      | cons d ds =>
        rw [NoAdjWS, List.chain'_cons] at h2
        have hd : isPySpace d = false := by
          rcases h2.1 with hh | hh
          · exact absurd hh (by simp [hc])
          · exact hh
        rw [collapseAux_true_head hd]
        rw [ih (fun x hx hws => h1 x (List.mem_cons_of_mem c hx) hws) h2.2]
        rw [hc']
    · rw [collapseAux, if_neg hc]
      have htl : NoAdjWS cs := by
        rw [NoAdjWS, List.chain'_cons'] at h2
        exact h2.2
      rw [ih (fun x hx hws => h1 x (List.mem_cons_of_mem c hx) hws) htl]

theorem process_text_allWsSp (s : PyStr) : allWsSp (process_text s) := by
  intro c hc hws
  rw [process_text] at hc
  exact collapseAux_allWsSp (subBlankLines s) false c (mem_of_mem_pyStrip hc) hws

theorem process_text_noAdj (s : PyStr) : NoAdjWS (process_text s) := by
  rw [process_text]
  exact noAdj_pyStrip (collapseAux_noAdj (subBlankLines s) false)

theorem process_text_no_nl (s : PyStr) : '\n' ∉ process_text s := by
  intro hm
  exact absurd (process_text_allWsSp s '\n' hm (by decide)) (by decide)

theorem process_text_head_not_ws (s : PyStr) :
    ∀ c, (process_text s).head? = some c → isPySpace c = false := by
  intro c hc
  cases hp : process_text s with
  | nil => rw [hp] at hc; exact absurd hc (by simp)
  | cons a as =>
    rw [hp] at hc
    simp only [List.head?_cons, Option.some.injEq] at hc
    rw [process_text] at hp
    rw [← hc]
    exact pyStrip_head hp

theorem process_text_last_not_ws (s : PyStr) :
    ∀ c, (process_text s).reverse.head? = some c → isPySpace c = false := by
  intro c hc
  cases hp : (process_text s).reverse with
  | nil => rw [hp] at hc; exact absurd hc (by simp)
  | cons a as =>
    rw [hp] at hc
    simp only [List.head?_cons, Option.some.injEq] at hc
    rw [process_text] at hp
    rw [← hc]
    exact pyStrip_last hp

/-- C9: for every input string, the result of `process_text` contains no
newline character: the second substitution replaces every remaining
whitespace run, including the blank lines produced by the first
substitution, with a single space, so the output is a single line with no
two consecutive spaces. -/
theorem process_text_single_line (s : PyStr) :
    '\n' ∉ process_text s ∧ hasDoubleSpace (process_text s) = false :=
  ⟨process_text_no_nl s, noAdj_no_double _ (process_text_noAdj s)⟩

/-- C3: normalization is idempotent — `process_text (process_text s) =
process_text s` for every input string `s`. -/
theorem process_text_idempotent (s : PyStr) :
    process_text (process_text s) = process_text s := by
  have hws : allWsSp (process_text s) := process_text_allWsSp s
  have hadj : NoAdjWS (process_text s) := process_text_noAdj s
  show pyStrip (collapseWS (subBlankLines (process_text s))) = process_text s
  rw [subBlankLines_no_nl _ (process_text_no_nl s)]
  rw [collapseWS, collapseAux_id hws hadj]
  exact pyStrip_eq_self (process_text_head_not_ws s) (process_text_last_not_ws s)

/-- C1 counterexample: a blank line separating two paragraphs does NOT
survive in the output of `process_text`; the second substitution turns it
into a single space, and the output contains no newline at all. -/
theorem process_text_blank_line_not_preserved :
    process_text (String.toList "para one\n\npara two")
      = String.toList "para one para two" ∧
    '\n' ∉ process_text (String.toList "para one\n\npara two") := by
  have h : process_text (String.toList "para one\n\npara two")
      = String.toList "para one para two" := by
    simp [process_text, subBlankLines, collapseWS, collapseAux, pyStrip, nlMatchLen,
      isPySpace, List.takeWhile, List.dropWhile]
  exact ⟨h, by rw [h]; decide⟩

theorem takeWhile_nonws_nil {b : PyStr} (hb : ∀ c ∈ b, isPySpace c = false) :
    b.takeWhile isPySpace = [] := by
  cases b with
  | nil => rfl
  | cons d ds =>
    rw [List.takeWhile_cons, if_neg]
    simp [hb d (List.mem_cons_self d ds)]

theorem subBlankLines_append_nonl {a : PyStr} (ha : ∀ c ∈ a, ¬ c = '\n') :
    ∀ rest, subBlankLines (a ++ rest) = a ++ subBlankLines rest := by
  induction a with
  | nil => intro rest; rfl
  | cons c cs ih =>
    intro rest
    rw [List.cons_append, subBlankLines, if_neg (ha c (List.mem_cons_self c cs))]
    rw [ih (fun x hx => ha x (List.mem_cons_of_mem c hx)) rest]
    rfl

theorem subBlankLines_two_nl {b : PyStr} (hb : ∀ c ∈ b, isPySpace c = false) :
    subBlankLines ('\n' :: '\n' :: b) = '\n' :: '\n' :: b := by
  have ht : ('\n' :: b).takeWhile isPySpace = ['\n'] := by
    rw [List.takeWhile_cons, if_pos (by decide), takeWhile_nonws_nil hb]
  have hnl : '\n' ∉ b := fun hm => absurd (hb '\n' hm) (by decide)
  rw [subBlankLines]
  simp only [ht, if_pos rfl, List.mem_singleton, if_pos (rfl : '\n' = '\n')]
  rw [show nlMatchLen ['\n'] = 1 from rfl]
  rw [List.drop_succ_cons, List.drop_zero]
  rw [subBlankLines_no_nl b hnl]
  simp

theorem collapseAux_append_nonws {a : PyStr} (ha : ∀ c ∈ a, isPySpace c = false) :
    ∀ rest, collapseAux false (a ++ rest) = a ++ collapseAux false rest := by
  induction a with
  | nil => intro rest; rfl
  | cons c cs ih =>
    intro rest
    rw [List.cons_append, collapseAux, if_neg (by simp [ha c (List.mem_cons_self c cs)])]
    rw [ih (fun x hx => ha x (List.mem_cons_of_mem c hx)) rest]
    rfl

theorem collapseAux_id_nonws {l : PyStr} (hl : ∀ c ∈ l, isPySpace c = false) :
    ∀ b, collapseAux b l = l := by
  induction l with
  | nil => intro b; rfl
  | cons c cs ih =>
    intro b
    rw [collapseAux, if_neg (by simp [hl c (List.mem_cons_self c cs)])]
    rw [ih (fun x hx => hl x (List.mem_cons_of_mem c hx)) false]

/-- C1 amended: `process_text` first collapses each run of blank lines to
one blank line, but the second substitution then replaces every whitespace
run — including that blank line — by a single space, and the result is
trimmed; in particular a blank line separating two (whitespace-free,
nonempty) paragraphs becomes exactly one space in the output. -/
theorem process_text_blank_line_to_space (a b : PyStr)
    (ha : ∀ c ∈ a, isPySpace c = false) (hb : ∀ c ∈ b, isPySpace c = false)
    (ha0 : a ≠ []) (hb0 : b ≠ []) :
    process_text (a ++ '\n' :: '\n' :: b) = a ++ ' ' :: b := by
  have hanl : ∀ c ∈ a, ¬ c = '\n' :=
    fun c hc e => absurd (ha c hc) (by rw [e]; decide)
  rw [process_text, subBlankLines_append_nonl hanl, subBlankLines_two_nl hb]
  rw [collapseWS, collapseAux_append_nonws ha]
  have hmid : collapseAux false ('\n' :: '\n' :: b) = ' ' :: b := by
    rw [collapseAux, if_pos (by decide)]
    simp only [Bool.false_eq_true, if_false]
    rw [collapseAux, if_pos (by decide)]
    simp only [if_pos rfl]
    rw [collapseAux_id_nonws hb true]
    simp
  rw [hmid]
  apply pyStrip_eq_self
  · intro c hc
    cases a with
    | nil => exact absurd rfl ha0
    | cons x xs =>
      rw [List.cons_append, List.head?_cons] at hc
      simp only [Option.some.injEq] at hc
      subst hc
      exact ha _ (List.mem_cons_self _ _)
  · intro c hc
    rw [List.reverse_append, List.reverse_cons] at hc
    cases hrb : b.reverse with
    | nil => exact absurd (List.reverse_eq_nil_iff.mp hrb) hb0
    | cons y ys =>
      rw [hrb, List.cons_append, List.cons_append, List.head?_cons] at hc
      simp only [Option.some.injEq] at hc
      subst hc
      have hy : y ∈ b.reverse := by rw [hrb]; exact List.mem_cons_self _ _
      exact hb _ (List.mem_reverse.mp hy)

/-- Witness for `process_text_blank_line_to_space` at the concrete
paragraphs `"p1"` and `"p2"`. -/
theorem process_text_blank_line_to_space_witness :
    process_text (String.toList "p1" ++ '\n' :: '\n' :: String.toList "p2")
      = String.toList "p1" ++ ' ' :: String.toList "p2" :=
  process_text_blank_line_to_space (String.toList "p1") (String.toList "p2")
    (by decide) (by decide) (by decide) (by decide)

theorem no_header_fold (lines : List PyStr)
    (h : ∀ raw ∈ lines, pyEndsWith (pyStrip raw) questionsColon = false) :
    ∀ qs, ∃ qs', lines.foldl parseStep ⟨[], none, qs⟩ = ⟨[], none, qs'⟩ := by
  induction lines with
  | nil => intro qs; exact ⟨qs, rfl⟩
  | cons raw rest ih =>
    intro qs
    have hr := h raw (List.mem_cons_self _ _)
    rw [List.foldl_cons]
    have hstep : ∃ qs1, parseStep ⟨[], none, qs⟩ raw = ⟨[], none, qs1⟩ := by
      rw [parseStep]
      simp only [hr, Bool.false_eq_true, if_false]
      split
      · exact ⟨qs ++ [questionOf (pyStrip raw)], rfl⟩
      · exact ⟨qs, rfl⟩
    obtain ⟨qs1, e⟩ := hstep
    rw [e]
    exact ih (fun r m => h r (List.mem_cons_of_mem _ m)) qs1

/-- C6: a reply in which no line, after trimming, ends with `"Questions:"`
parses to the empty mapping, even if it contains numbered lines. -/
theorem parse_questions_no_header_empty (t : PyStr)
    (h : ∀ raw ∈ List.splitOn '\n' t, pyEndsWith (pyStrip raw) questionsColon = false) :
    parse_questions t = [] := by
  rw [parse_questions]
  obtain ⟨qs', e⟩ := no_header_fold (List.splitOn '\n' t) h []
  rw [e]
  rfl

/-- Witness for `parse_questions_no_header_empty` on a reply with numbered
lines but no section header. -/
theorem parse_questions_no_header_empty_witness :
    parse_questions (String.toList "1. first\nplain text") = [] :=
  parse_questions_no_header_empty _ (by decide)

theorem dictInsert_mem {k : PyStr} {v : List PyStr} :
    ∀ {d : List (PyStr × List PyStr)} {p : PyStr × List PyStr},
      p ∈ dictInsert k v d → p.2 = v ∨ p ∈ d := by
  intro d
  induction d with
  | nil =>
    intro p hp
    rw [dictInsert] at hp
    rw [List.mem_singleton.mp hp]
    exact Or.inl rfl
  | cons kv rest ih =>
    obtain ⟨k', v'⟩ := kv
    intro p hp
    rw [dictInsert] at hp
    by_cases hk : k' = k
    · rw [if_pos hk] at hp
      rcases List.mem_cons.mp hp with h | h
      · rw [h]; exact Or.inl rfl
      · exact Or.inr (List.mem_cons_of_mem _ h)
    · rw [if_neg hk] at hp
      rcases List.mem_cons.mp hp with h | h
      · rw [h]; exact Or.inr (List.mem_cons_self _ _)
      · rcases ih h with hh | hh
        · exact Or.inl hh
        · exact Or.inr (List.mem_cons_of_mem _ hh)

theorem flushSection_mem :
    ∀ (st : ParseState) (p : PyStr × List PyStr), p ∈ flushSection st →
      (p.2 = st.current_questions ∧ st.current_questions ≠ []) ∨ p ∈ st.sections := by
  intro st p hp
  obtain ⟨secs, csec, cqs⟩ := st
  cases csec with
  | none => exact Or.inr hp
  | some s =>
    simp only [flushSection] at hp
    by_cases hcond : (!s.isEmpty && !cqs.isEmpty) = true
    · rw [if_pos hcond] at hp
      rcases dictInsert_mem hp with h | h
      · refine Or.inl ⟨h, fun e => ?_⟩
        dsimp only at e
        rw [e] at hcond
        simp at hcond
      · exact Or.inr h
    · rw [if_neg hcond] at hp
      exact Or.inr hp

theorem parseStep_nonempty_inv {st : ParseState}
    (hinv : ∀ p ∈ st.sections, p.2 ≠ []) (raw : PyStr) :
    ∀ p ∈ (parseStep st raw).sections, p.2 ≠ [] := by
  intro p hp
  rw [parseStep] at hp
  split at hp
  · simp only at hp
    rcases flushSection_mem st p hp with ⟨h1, h2⟩ | h1
    · rw [h1]; exact h2
    · exact hinv p h1
  · split at hp
    · exact hinv p hp
    · exact hinv p hp

theorem fold_nonempty_inv :
    ∀ (lines : List PyStr) (st : ParseState), (∀ p ∈ st.sections, p.2 ≠ []) →
      ∀ p ∈ (lines.foldl parseStep st).sections, p.2 ≠ [] := by
  intro lines
  induction lines with
  | nil => intro st h; exact h
  | cons raw rest ih =>
    intro st h
    rw [List.foldl_cons]
    exact ih _ (parseStep_nonempty_inv h raw)

/-- C10: every value of the mapping returned by `parse_questions` is a
nonempty list of questions; a header with no questions never appears as a
key. -/
theorem parse_questions_values_nonempty (t sec : PyStr) (qs : List PyStr)
    (h : (sec, qs) ∈ parse_questions t) : qs ≠ [] := by
  rw [parse_questions] at h
  rcases flushSection_mem _ _ h with ⟨h1, h2⟩ | h1
  · rw [show qs = (sec, qs).2 from rfl, h1]
    exact h2
  · exact fold_nonempty_inv _ _ (by intro p hp; exact absurd hp (List.not_mem_nil p)) _ h1

/-- Witness for `parse_questions_values_nonempty` on a one-section reply. -/
theorem parse_questions_values_nonempty_witness : [String.toList "A?"] ≠ [] :=
  parse_questions_values_nonempty (String.toList "My Questions:\n1. A?")
    (String.toList "My Questions") [String.toList "A?"] (by decide)

theorem parseStep_question_source (st : ParseState) (raw q : PyStr)
    (h : (∃ p ∈ (parseStep st raw).sections, q ∈ p.2) ∨
      q ∈ (parseStep st raw).current_questions) :
    (startsDigit (pyStrip raw) = true ∧ hasDotSpace (pyStrip raw) = true ∧
      q = questionOf (pyStrip raw)) ∨
    ((∃ p ∈ st.sections, q ∈ p.2) ∨ q ∈ st.current_questions) := by
  rw [parseStep] at h
  split at h
  · dsimp only at h
    rcases h with ⟨p, hp, hq⟩ | hq
    · rcases flushSection_mem st p hp with ⟨h1, _⟩ | h1
      · exact Or.inr (Or.inr (h1 ▸ hq))
      · exact Or.inr (Or.inl ⟨p, h1, hq⟩)
    · exact absurd hq (List.not_mem_nil q)
  · split at h
    · dsimp only at h
      rcases h with ⟨p, hp, hq⟩ | hq
      · exact Or.inr (Or.inl ⟨p, hp, hq⟩)
      · rcases List.mem_append.mp hq with hq' | hq'
        · exact Or.inr (Or.inr hq')
        · rename_i hcond
          rw [List.mem_singleton.mp hq']
          simp only [Bool.and_eq_true] at hcond
          exact Or.inl ⟨hcond.1, hcond.2, rfl⟩
    · exact Or.inr h

theorem fold_question_source :
    ∀ (lines : List PyStr) (st : ParseState) (q : PyStr),
      ((∃ p ∈ (lines.foldl parseStep st).sections, q ∈ p.2) ∨
        q ∈ (lines.foldl parseStep st).current_questions) →
      (∃ raw ∈ lines, startsDigit (pyStrip raw) = true ∧
        hasDotSpace (pyStrip raw) = true ∧ q = questionOf (pyStrip raw)) ∨
      ((∃ p ∈ st.sections, q ∈ p.2) ∨ q ∈ st.current_questions) := by
  intro lines
  induction lines with
  | nil => intro st q h; exact Or.inr h
  | cons raw rest ih =>
    intro st q h
    rw [List.foldl_cons] at h
    rcases ih (parseStep st raw) q h with ⟨raw', hraw', hgood⟩ | hstate
    · exact Or.inl ⟨raw', List.mem_cons_of_mem _ hraw', hgood⟩
    · rcases parseStep_question_source st raw q hstate with hline | hold
      · exact Or.inl ⟨raw, List.mem_cons_self _ _, hline⟩
      · exact Or.inr hold

/-- C7: every question recorded by `parse_questions` originates from a line
whose stripped form starts with a digit and contains the substring `". "`;
hence a line beginning with a digit but lacking `". "` (such as
`"1)No question"`) is never recorded as a question. -/
theorem parse_questions_question_source (t sec q : PyStr) (qs : List PyStr)
    (hmem : (sec, qs) ∈ parse_questions t) (hq : q ∈ qs) :
    ∃ raw ∈ List.splitOn '\n' t,
      startsDigit (pyStrip raw) = true ∧ hasDotSpace (pyStrip raw) = true ∧
      q = questionOf (pyStrip raw) := by
  rw [parse_questions] at hmem
  have hst : (∃ p ∈ ((List.splitOn '\n' t).foldl parseStep ⟨[], none, []⟩).sections, q ∈ p.2) ∨
      q ∈ ((List.splitOn '\n' t).foldl parseStep ⟨[], none, []⟩).current_questions := by
    rcases flushSection_mem _ _ hmem with ⟨h1, _⟩ | h1
    · exact Or.inr (h1 ▸ hq)
    · exact Or.inl ⟨(sec, qs), h1, hq⟩
  rcases fold_question_source _ _ _ hst with hfound | hinit
  · exact hfound
  · rcases hinit with ⟨p, hp, _⟩ | hqq
    · exact absurd hp (List.not_mem_nil p)
    · exact absurd hqq (List.not_mem_nil q)

/-- Witness for `parse_questions_question_source`: the single question of a
concrete reply comes from its `"1. A?"` line. -/
theorem parse_questions_question_source_witness :
    ∃ raw ∈ List.splitOn '\n' (String.toList "My Questions:\n1)No question\n1. A?"),
      startsDigit (pyStrip raw) = true ∧ hasDotSpace (pyStrip raw) = true ∧
      String.toList "A?" = questionOf (pyStrip raw) :=
  parse_questions_question_source (String.toList "My Questions:\n1)No question\n1. A?")
    (String.toList "My Questions") (String.toList "A?") [String.toList "A?"]
    (by decide) (by decide)

/-- C4: parsing the exact well-formed reply
`"Technical Questions:\n1. A?\n2. B?\n\nBehavioral Questions:\n1. C?\n"`
yields exactly the two-section mapping
`{"Technical Questions": ["A?", "B?"], "Behavioral Questions": ["C?"]}`. -/
theorem parse_questions_wellformed_reply :
    parse_questions
      (String.toList "Technical Questions:\n1. A?\n2. B?\n\nBehavioral Questions:\n1. C?\n")
      = [(String.toList "Technical Questions", [String.toList "A?", String.toList "B?"]),
         (String.toList "Behavioral Questions", [String.toList "C?"])] := by
  decide

/-- C5: if method 1 of the PDF chain returns a whitespace-only string and
method 2 returns a string that is nonempty after stripping, the chain's
result is method 2's output and never method 1's. -/
theorem pdf_chain_prefers_method2 (t1 t2 : PyStr) (m3 : ExtractResult)
    (h1 : pyStrip t1 = []) (h2 : pyStrip t2 ≠ []) :
    extractPdfText (.ok t1) (.ok t2) m3 = .ok t2 ∧
    extractPdfText (.ok t1) (.ok t2) m3 ≠ .ok t1 := by
  have he1 : (pyStrip t1).isEmpty = true := by rw [h1]; rfl
  have he2 : (pyStrip t2).isEmpty = false := by
    cases hh : pyStrip t2 with
    | nil => exact absurd hh h2
    | cons a as => rfl
  have heq : extractPdfText (.ok t1) (.ok t2) m3 = .ok t2 := by
    simp only [extractPdfText, he1, he2]
    simp
  refine ⟨heq, ?_⟩
  rw [heq]
  intro e
  injection e with e'
  rw [e', h1] at h2
  exact h2 rfl

/-- Witness for `pdf_chain_prefers_method2`: method 1 returns `"  "`,
method 2 returns `"resume text"`. -/
theorem pdf_chain_prefers_method2_witness :
    extractPdfText (.ok (String.toList "  ")) (.ok (String.toList "resume text")) (.ok [])
      = .ok (String.toList "resume text") ∧
    extractPdfText (.ok (String.toList "  ")) (.ok (String.toList "resume text")) (.ok [])
      ≠ .ok (String.toList "  ") :=
  pdf_chain_prefers_method2 _ _ _ (by decide) (by decide)

/-- C2 counterexample: when method 1 (pdfplumber) raises an exception, the
chain does NOT fall through to method 2; the exception escapes to `main`'s
outer handler and the user gets the generic error report, not method 2's
text. -/
theorem pdf_method_exception_not_fallthrough :
    runPdfBranch (.error (String.toList "boom")) (.ok (String.toList "hello")) (.ok (String.toList "x"))
      = .genericReport (String.toList "boom") ∧
    runPdfBranch (.error (String.toList "boom")) (.ok (String.toList "hello")) (.ok (String.toList "x"))
      ≠ .text (String.toList "hello") := by
  exact ⟨rfl, by decide⟩

/-- C2 amended: an exception raised by a PDF extraction method is NOT
treated like an empty result; it aborts the whole chain and surfaces as the
generic error report, regardless of what the later methods would return. -/
theorem pdf_method_exception_aborts_chain (e t1 : PyStr) (m2 m3 : ExtractResult)
    (h : pyStrip t1 = []) :
    runPdfBranch (.error e) m2 m3 = .genericReport e ∧
    runPdfBranch (.ok t1) (.error e) m3 = .genericReport e := by
  constructor
  · rfl
  · have he1 : (pyStrip t1).isEmpty = true := by rw [h]; rfl
    rw [runPdfBranch]
    simp only [extractPdfText, he1]
    simp

/-- Witness for `pdf_method_exception_aborts_chain` with concrete method
results. -/
theorem pdf_method_exception_aborts_chain_witness :
    runPdfBranch (.error (String.toList "err")) (.ok (String.toList "a")) (.ok [])
      = .genericReport (String.toList "err") ∧
    runPdfBranch (.ok (String.toList " ")) (.error (String.toList "err")) (.ok [])
      = .genericReport (String.toList "err") :=
  pdf_method_exception_aborts_chain (String.toList "err") (String.toList " ")
    (.ok (String.toList "a")) (.ok []) (by decide)

theorem pyJoin_enum (qs : List PyStr) :
    ∀ n, pyJoin ['\n']
        ((pyEnum n qs).map (fun p => natChars (p.1 + 1) ++ '.' :: ' ' :: p.2))
      = claimNumbered (n + 1) qs := by
  induction qs with
  | nil => intro n; rfl
  | cons q rest ih =>
    intro n
    cases rest with
    | nil => rfl
    | cons q' rest' =>
      rw [pyEnum, List.map_cons, pyEnum, List.map_cons, pyJoin, claimNumbered]
      rw [← ih (n + 1)]
      rw [pyEnum, List.map_cons]
      simp

/-- C8: the downloadable questions artifact built by `main` is exactly the
claimed reconstruction — per section, the name, a colon and a newline, then
the 1-based numbered questions one per line, with consecutive sections
separated by one blank line. -/
theorem questionsArtifact_matches_claim (secs : List (PyStr × List PyStr)) :
    questionsArtifact secs = claimArtifact secs := by
  induction secs with
  | nil => rfl
  | cons p rest ih =>
    obtain ⟨s, qs⟩ := p
    cases rest with
    | nil =>
      show pyJoin ['\n', '\n'] [sectionBlock s qs] = claimArtifact [(s, qs)]
      rw [claimArtifact, pyJoin, sectionBlock, numberedLines, pyJoin_enum qs 0]
    | cons p' rest' =>
      rw [questionsArtifact, List.map_cons, List.map_cons, pyJoin, claimArtifact]
      rw [← ih]
      rw [sectionBlock, numberedLines, pyJoin_enum qs 0]
      rw [questionsArtifact, List.map_cons]
      simp
